import Mathlib

/-!
Verification of the RSA encrypter/decrypter engine (`src/utils/rsa.ts`).

The TypeScript source works on JavaScript `bigint` values (arbitrary
precision, non-negative throughout the engine except for the Bezout
coefficients of the extended Euclidean algorithm) and on `Uint8Array`
byte buffers.  The shallow embedding below uses `Nat` for the big
integers, `Int` for the Bezout coefficients, `List Nat` for byte
buffers (each entry < 256), and `List Char` for the transported
strings.  Loops that are driven by a shrinking numeric value are
written with an explicit structural fuel argument so that every
definition computes by kernel reduction; the fuel chosen at each call
site strictly dominates the number of iterations the JavaScript loop
performs, which is proved where a claim depends on it.  Fallible
TypeScript functions (`throw`) are embedded with `Except String`.
Randomness (`crypto.getRandomValues`) is made explicit: consumers take
the drawn values as parameters.
-/

deriving instance DecidableEq for Except

/-- Statuses of a visualization step (`ProcessStep.status` in the source). -/
inductive StepStatus where
  | pending
  | active
  | completed
deriving DecidableEq

/-- A process step for visualization.  The source record also carries
`description`, `value` and `details`, free-text fields that are only
ever displayed and never read back by the engine; the embedding keeps
the fields the program logic produces structurally: the 1-based index
`step`, the `name` label and the `status`. -/
structure ProcessStep where
  step : Nat
  name : String
  status : StepStatus
deriving DecidableEq

/-- The number of binary digits of `n` as JavaScript computes it via
`n.toString(2).length`: 1 for `n = 0`, otherwise `⌊log₂ n⌋ + 1`.
Structural fuel; `bitLenAux fuel n` is exact whenever `n < 2 ^ fuel`. -/
def bitLenAux : Nat → Nat → Nat
  | 0, _ => 0
  | fuel + 1, n => if n = 0 then 0 else bitLenAux fuel (n / 2) + 1

/-- `n.toString(2).length` of the source. -/
def bitLen (n : Nat) : Nat :=
  if n = 0 then 1 else bitLenAux n n

/-- `Math.ceil(n.toString(2).length / 8)`:  the byte length the source
assigns to a big integer. -/
def byteLen (n : Nat) : Nat :=
  (bitLen n + 7) / 8

/-- `bigIntToBytes(num, byteLength)` of the source: exactly
`byteLength` big-endian bytes, filled from the low end by repeated
`% 256` / `/ 256`, silently truncating values that do not fit. -/
def bigIntToBytes (num : Nat) : Nat → List Nat
  | 0 => []
  | byteLength + 1 => bigIntToBytes (num / 256) byteLength ++ [num % 256]

/-- `bytesToBigInt(bytes)` of the source: big-endian accumulation
`result = result * 256 + byte`. -/
def bytesToBigInt (bytes : List Nat) : Nat :=
  bytes.foldl (fun result b => result * 256 + b) 0

theorem bigIntToBytes_length (num L : Nat) : (bigIntToBytes num L).length = L := by
  induction L generalizing num with
  | zero => rfl
  | succ L ih => simp [bigIntToBytes, ih]

theorem bigIntToBytes_lt (num L : Nat) : ∀ b ∈ bigIntToBytes num L, b < 256 := by
  induction L generalizing num with
  | zero => simp [bigIntToBytes]
  | succ L ih =>
    intro b hb
    simp only [bigIntToBytes, List.mem_append, List.mem_singleton] at hb
    rcases hb with hb | hb
    · exact ih _ b hb
    · omega

theorem bytesToBigInt_from (a : Nat) (bytes : List Nat) :
    bytes.foldl (fun result b => result * 256 + b) a =
      a * 256 ^ bytes.length + bytesToBigInt bytes := by
  induction bytes generalizing a with
  | nil => simp [bytesToBigInt]
  | cons b rest ih =>
    simp only [List.foldl_cons, bytesToBigInt] at *
    rw [ih (a * 256 + b)]
    have hb : (0 : Nat) * 256 + b = b := by omega
    rw [hb, ih b]
    simp only [List.length_cons, pow_succ]
    ring

theorem bytesToBigInt_append (xs ys : List Nat) :
    bytesToBigInt (xs ++ ys) = bytesToBigInt xs * 256 ^ ys.length + bytesToBigInt ys := by
  simp only [bytesToBigInt, List.foldl_append]
  exact bytesToBigInt_from _ ys

theorem bytesToBigInt_singleton (b : Nat) : bytesToBigInt [b] = b := by
  simp [bytesToBigInt]

theorem bytesToBigInt_cons (b : Nat) (rest : List Nat) :
    bytesToBigInt (b :: rest) = b * 256 ^ rest.length + bytesToBigInt rest := by
  have h := bytesToBigInt_append [b] rest
  rw [bytesToBigInt_singleton] at h
  simpa using h

theorem bytesToBigInt_bigIntToBytes (num L : Nat) :
    bytesToBigInt (bigIntToBytes num L) = num % 256 ^ L := by
  induction L generalizing num with
  | zero => simp [bigIntToBytes, bytesToBigInt, Nat.mod_one]
  | succ L ih =>
    rw [bigIntToBytes, bytesToBigInt_append, ih, bytesToBigInt_singleton]
    have h : num % (256 ^ L * 256) = 256 * (num / 256 % 256 ^ L) + num % 256 := by
      rw [Nat.mul_comm (256 ^ L) 256, Nat.mod_mul]
      omega
    simp only [List.length_singleton, pow_one, pow_succ]
    omega

theorem bytesToBigInt_lt (bytes : List Nat) (h : ∀ b ∈ bytes, b < 256) :
    bytesToBigInt bytes < 256 ^ bytes.length := by
  induction bytes with
  | nil => simp [bytesToBigInt]
  | cons b rest ih =>
    have hb : b < 256 := h b (by simp)
    have hr : bytesToBigInt rest < 256 ^ rest.length :=
      ih (fun x hx => h x (by simp [hx]))
    have hstep : b * 256 ^ rest.length + bytesToBigInt rest <
        (b + 1) * 256 ^ rest.length := by
      nlinarith [pow_pos (show 0 < 256 by norm_num) rest.length]
    calc bytesToBigInt (b :: rest)
        = b * 256 ^ rest.length + bytesToBigInt rest := bytesToBigInt_cons b rest
      _ < (b + 1) * 256 ^ rest.length := hstep
      _ ≤ 256 * 256 ^ rest.length := by
          have hble : b + 1 ≤ 256 := by omega
          exact Nat.mul_le_mul_right _ hble
      _ = 256 ^ (b :: rest).length := by
          simp only [List.length_cons, pow_succ]; ring

theorem bigIntToBytes_bytesToBigInt (bytes : List Nat) (h : ∀ b ∈ bytes, b < 256) :
    bigIntToBytes (bytesToBigInt bytes) bytes.length = bytes := by
  induction bytes using List.reverseRecOn with
  | nil => simp [bytesToBigInt, bigIntToBytes]
  | append_singleton rest b ih =>
    have hb : b < 256 := h b (by simp)
    rw [bytesToBigInt_append]
    have hlen : (rest ++ [b]).length = rest.length + 1 := by simp
    rw [hlen, bigIntToBytes]
    have hval : bytesToBigInt [b] = b := by simp [bytesToBigInt]
    rw [hval]
    simp only [List.length_singleton, pow_one]
    have hdiv : (bytesToBigInt rest * 256 + b) / 256 = bytesToBigInt rest := by
      omega
    have hmod : (bytesToBigInt rest * 256 + b) % 256 = b := by
      omega
    rw [hdiv, hmod, ih (fun x hx => h x (by simp [hx]))]

theorem bitLenAux_spec (fuel n : Nat) (hn : 0 < n) (hf : n < 2 ^ fuel) :
    0 < bitLenAux fuel n ∧
      2 ^ (bitLenAux fuel n - 1) ≤ n ∧ n < 2 ^ bitLenAux fuel n := by
  induction fuel generalizing n with
  | zero => simp at hf; omega
  | succ fuel ih =>
    rw [bitLenAux]
    have hn0 : ¬ n = 0 := by omega
    simp only [hn0, if_false]
    by_cases h1 : n = 1
    · subst h1
      have : bitLenAux fuel 0 = 0 := by
        cases fuel <;> simp [bitLenAux]
      simp [this]
    · have hge2 : 2 ≤ n := by omega
      have hhalf : 0 < n / 2 := by omega
      have hhalf2 : n / 2 < 2 ^ fuel := by
        rw [pow_succ] at hf
        omega
      obtain ⟨hpos, hlo, hhi⟩ := ih (n / 2) hhalf hhalf2
      refine ⟨by omega, ?_, ?_⟩
      · have h2 : bitLenAux fuel (n / 2) - 1 + 1 = bitLenAux fuel (n / 2) := by omega
        have hkey : 2 ^ (bitLenAux fuel (n / 2) + 1 - 1) =
            2 ^ (bitLenAux fuel (n / 2) - 1) * 2 := by
          rw [Nat.add_sub_cancel]
          conv_lhs => rw [← h2]
          rw [pow_succ]
        rw [hkey]
        omega
      · rw [pow_succ]
        omega

theorem bitLen_spec (n : Nat) (hn : 0 < n) :
    2 ^ (bitLen n - 1) ≤ n ∧ n < 2 ^ bitLen n := by
  have h := bitLenAux_spec n n hn (Nat.lt_two_pow n)
  rw [bitLen, if_neg (by omega)]
  exact ⟨h.2.1, h.2.2⟩

theorem lt_two_pow_bitLen (n : Nat) : n < 2 ^ bitLen n := by
  rcases Nat.eq_zero_or_pos n with h | h
  · subst h; simp [bitLen]
  · exact (bitLen_spec n h).2

theorem lt_pow_byteLen (n : Nat) : n < 256 ^ byteLen n := by
  have h1 : n < 2 ^ bitLen n := lt_two_pow_bitLen n
  have h2 : bitLen n ≤ 8 * byteLen n := by
    rw [byteLen]; omega
  calc n < 2 ^ bitLen n := h1
    _ ≤ 2 ^ (8 * byteLen n) := Nat.pow_le_pow_right (by norm_num) h2
    _ = 256 ^ byteLen n := by
        rw [Nat.pow_mul]

/-- C10: `bigIntToBytes(v, L)` returns exactly `L` big-endian bytes (each
below 256) encoding `v mod 256^L` — a value that does not fit is silently
truncated, never an error (the function is total) — hence
`bytesToBigInt(bigIntToBytes(v, L)) = v mod 256^L`; and `bytesToBigInt`
of the empty sequence is 0. -/
theorem bigIntToBytes_roundtrip_mod (v L : Nat) :
    (bigIntToBytes v L).length = L ∧
      (∀ b ∈ bigIntToBytes v L, b < 256) ∧
      bytesToBigInt (bigIntToBytes v L) = v % 256 ^ L ∧
      bytesToBigInt [] = 0 :=
  ⟨bigIntToBytes_length v L, bigIntToBytes_lt v L,
    bytesToBigInt_bigIntToBytes v L, rfl⟩

/-- Fuel-driven embedding of the `while (exp > 0)` loop of `modPow`:
squares the base, halves the exponent and multiplies the accumulator on
odd exponents, all modulo `m`.  The loop runs at most `log₂ exp + 1`
times, so any `fuel ≥ exp` is exact. -/
def modPowAux (m : Nat) : Nat → Nat → Nat → Nat → Nat
  | 0, _, _, result => result
  | fuel + 1, base, exp, result =>
    if exp = 0 then result
    else modPowAux m fuel ((base * base) % m) (exp / 2)
      (if exp % 2 = 1 then (result * base) % m else result)

/-- `modPow(base, exp, mod)` of the source: fast modular exponentiation
by squaring, with the initial reduction `base = base % mod`. -/
def modPow (base exp m : Nat) : Nat :=
  modPowAux m exp (base % m) exp 1

theorem modPowAux_spec (m : Nat) (hm : 1 < m) :
    ∀ fuel exp base result, exp ≤ fuel → result < m →
      modPowAux m fuel base exp result = result * base ^ exp % m := by
  intro fuel
  induction fuel with
  | zero =>
    intro exp base result hle hr
    have : exp = 0 := by omega
    subst this
    simp [modPowAux, Nat.mod_eq_of_lt hr]
  | succ fuel ih =>
    intro exp base result hle hr
    rw [modPowAux]
    by_cases h0 : exp = 0
    · subst h0
      simp [Nat.mod_eq_of_lt hr]
    · simp only [h0, if_false]
      have hle2 : exp / 2 ≤ fuel := by omega
      have hr2 : (if exp % 2 = 1 then result * base % m else result) < m := by
        split
        · exact Nat.mod_lt _ (by omega)
        · exact hr
      rw [ih (exp / 2) ((base * base) % m) _ hle2 hr2]
      have hsplit : exp = 2 * (exp / 2) + exp % 2 := by omega
      have hcong : (if exp % 2 = 1 then result * base % m else result) *
          ((base * base) % m) ^ (exp / 2) ≡ result * base ^ exp [MOD m] := by
        have h1' : ((base * base) % m) ^ (exp / 2) ≡ base ^ (2 * (exp / 2)) [MOD m] := by
          have heq : (base * base) ^ (exp / 2) = base ^ (2 * (exp / 2)) := by
            rw [two_mul, pow_add, ← pow_add]
            ring
          rw [← heq]
          exact Nat.ModEq.pow _ (Nat.mod_modEq _ m)
        have h2 : (if exp % 2 = 1 then result * base % m else result) ≡
            result * base ^ (exp % 2) [MOD m] := by
          rcases Nat.mod_two_eq_zero_or_one exp with h | h
          · simp only [h, pow_zero, mul_one]
            exact Nat.ModEq.refl result
          · simp only [h, if_pos rfl, pow_one]
            exact Nat.mod_modEq _ m
        calc (if exp % 2 = 1 then result * base % m else result) *
              ((base * base) % m) ^ (exp / 2)
            ≡ result * base ^ (exp % 2) * base ^ (2 * (exp / 2)) [MOD m] :=
              Nat.ModEq.mul h2 h1'
          _ = result * base ^ exp := by
              rw [mul_assoc, ← pow_add]
              congr 2
              omega
      calc (if exp % 2 = 1 then result * base % m else result) *
            ((base * base) % m) ^ (exp / 2) % m
          = result * base ^ exp % m := hcong

theorem modPow_eq (base exp m : Nat) (hm : 1 < m) :
    modPow base exp m = base ^ exp % m := by
  rw [modPow, modPowAux_spec m hm exp exp (base % m) 1 (le_refl exp) (by omega),
    one_mul, ← Nat.pow_mod]

/-- C3: for all `base ≥ 0`, `exp ≥ 0` and `m > 1`,
`modPow(base, exp, m) = base^exp mod m`; in particular
`modPow(a, 0, m) = 1` regardless of `a`, and `modPow(a, 1, m) = a mod m`. -/
theorem modPow_spec (base exp m : Nat) (hm : 1 < m) :
    modPow base exp m = base ^ exp % m ∧
      modPow base 0 m = 1 ∧
      modPow base 1 m = base % m := by
  refine ⟨modPow_eq base exp m hm, ?_, ?_⟩
  · rfl
  · rw [modPow_eq base 1 m hm, pow_one]

/-- Witness for C3 at `base = 5`, `exp = 3`, `m = 7`. -/
theorem modPow_spec_witness :
    modPow 5 3 7 = 5 ^ 3 % 7 ∧ modPow 5 0 7 = 1 ∧ modPow 5 1 7 = 5 % 7 :=
  modPow_spec 5 3 7 (by decide)

/-- Fuel-driven embedding of the `while (r !== 0)` loop of `modInverse`
(extended Euclidean algorithm).  The remainder track stays non-negative
in every reachable call (the source is only ever invoked with
non-negative arguments), so it is carried in `Nat`; the Bezout
coefficient track `oldS`/`s` goes negative and is carried in `Int`.
Each iteration strictly decreases `r`, so any `fuel > r` is exact. -/
def modInverseLoop : Nat → Nat → Nat → Int → Int → Nat × Int
  | 0, oldR, _, oldS, _ => (oldR, oldS)
  | fuel + 1, oldR, r, oldS, s =>
    if r = 0 then (oldR, oldS)
    else modInverseLoop fuel r (oldR % r) s (oldS - (oldR / r : Nat) * s)

/-- `modInverse(a, m)` of the source: `m = 1` short-circuits to 1; the
extended Euclidean loop yields `(oldR, oldS)`; `oldR > 1` means no
inverse exists; otherwise `oldS` is normalized into `[0, m)` by adding
`m` when negative. -/
def modInverse (a m : Nat) : Except String Int :=
  if m = 1 then .ok 1
  else
    let p := modInverseLoop (m + 1) a m 1 0
    if 1 < p.1 then .error "Modular inverse does not exist"
    else .ok (if p.2 < 0 then p.2 + m else p.2)

theorem modInverseLoop_gcd :
    ∀ fuel oldR r oldS s, r < fuel →
      (modInverseLoop fuel oldR r oldS s).1 = Nat.gcd oldR r := by
  intro fuel
  induction fuel with
  | zero => omega
  | succ fuel ih =>
    intro oldR r oldS s hf
    rw [modInverseLoop]
    by_cases h0 : r = 0
    · subst h0
      simp
    · simp only [h0, if_false]
      rw [ih r (oldR % r) _ _ (by have := Nat.mod_lt oldR (show 0 < r by omega); omega)]
      rw [Nat.gcd_comm oldR r, Nat.gcd_rec r oldR, Nat.gcd_comm (oldR % r) r]

theorem modInverseLoop_invariant (M A : Nat) :
    ∀ (fuel oldR r : Nat) (oldS s : Int), r < fuel → 0 < oldR →
      s * oldS ≤ 0 →
      (s.natAbs : Int) * oldR + (oldS.natAbs : Int) * r = M →
      (A : Int) * oldS ≡ oldR [ZMOD (M : Int)] →
      (A : Int) * s ≡ r [ZMOD (M : Int)] →
      oldS.natAbs ≤ M →
      ((modInverseLoop fuel oldR r oldS s).2.natAbs ≤ M ∧
        (A : Int) * (modInverseLoop fuel oldR r oldS s).2 ≡
          ((modInverseLoop fuel oldR r oldS s).1 : Int) [ZMOD (M : Int)]) := by
  intro fuel
  induction fuel with
  | zero => omega
  | succ fuel ih =>
    intro oldR r oldS s hf hpos hsign hJ hc1 hc2 hbound
    rw [modInverseLoop]
    by_cases h0 : r = 0
    · subst h0
      simp only [if_pos rfl]
      exact ⟨hbound, hc1⟩
    · simp only [h0, if_false]
      have hrpos : 0 < r := by omega
      have hmodlt : oldR % r < r := Nat.mod_lt oldR hrpos
      set q : Nat := oldR / r with hq
      have hqr : ((oldR % r : Nat) : Int) = (oldR : Int) - (q : Int) * r := by
        have hmd : oldR % r + r * q = oldR := Nat.mod_add_div oldR r
        have hmd' : ((oldR % r : Nat) : Int) + (r : Int) * q = oldR := by
          exact_mod_cast congrArg (fun x : Nat => (x : Int)) hmd
        linarith
      have hqnn : (0 : Int) ≤ (q : Int) := Int.natCast_nonneg q
      -- sign alternation is preserved
      have hsign' : (oldS - (q : Int) * s) * s ≤ 0 := by
        have h1 : oldS * s ≤ 0 := by linarith [mul_comm s oldS]
        have h2 : (0 : Int) ≤ (q : Int) * (s * s) :=
          mul_nonneg hqnn (mul_self_nonneg s)
        nlinarith
      -- the absolute value of the new coefficient splits
      have habs : (oldS - (q : Int) * s).natAbs = oldS.natAbs + ((q : Int) * s).natAbs := by
        have hprod : oldS * ((q : Int) * s) ≤ 0 := by
          rcases mul_nonpos_iff.mp hsign with ⟨ha, hb⟩ | ⟨ha, hb⟩
          · have hqs : (0 : Int) ≤ (q : Int) * s := mul_nonneg hqnn ha
            nlinarith
          · have hqs : (q : Int) * s ≤ 0 := mul_nonpos_of_nonneg_of_nonpos hqnn ha
            nlinarith
        rcases mul_nonpos_iff.mp hprod with ⟨ha, hb⟩ | ⟨ha, hb⟩ <;> omega
      have hqabs : (((q : Int) * s).natAbs : Int) = (q : Int) * (s.natAbs : Int) := by
        rw [Int.natAbs_mul, Int.natAbs_ofNat]
        push_cast
        ring
      -- the size invariant is preserved
      have hJ' : ((oldS - (q : Int) * s).natAbs : Int) * r +
          (s.natAbs : Int) * ((oldR % r : Nat) : Int) = M := by
        have h1 : ((oldS - (q : Int) * s).natAbs : Int) =
            (oldS.natAbs : Int) + (q : Int) * (s.natAbs : Int) := by
          rw [habs]
          push_cast
          rw [abs_mul, abs_of_nonneg hqnn]
        rw [h1, hqr]
        linear_combination hJ
      -- the congruences are preserved
      have hc2' : (A : Int) * (oldS - (q : Int) * s) ≡ ((oldR % r : Nat) : Int)
          [ZMOD (M : Int)] := by
        have : (A : Int) * (oldS - (q : Int) * s) =
            (A : Int) * oldS - (q : Int) * ((A : Int) * s) := by ring
        rw [this, hqr]
        exact Int.ModEq.sub hc1 (Int.ModEq.mul (Int.ModEq.refl _) hc2)
      -- the carried bound is re-established from the size invariant
      have hbound' : s.natAbs ≤ M := by
        have ha : (0 : Int) ≤ (oldS.natAbs : Int) * r := by positivity
        have h1 : (s.natAbs : Int) * oldR ≤ M := by linarith
        have h2 : (1 : Int) ≤ oldR := by exact_mod_cast hpos
        have h3 : (s.natAbs : Int) ≤ (s.natAbs : Int) * oldR := by nlinarith
        have h4 : (s.natAbs : Int) ≤ M := by linarith
        exact_mod_cast h4
      exact ih r (oldR % r) s (oldS - (q : Int) * s) (by omega) hrpos hsign' hJ' hc2 hc2'
        hbound'

theorem modInverse_ok (a m : Nat) (ha : 0 < a) (hm : 2 ≤ m) (hg : Nat.gcd a m = 1) :
    ∃ x : Int, modInverse a m = .ok x ∧ 0 ≤ x ∧ x < (m : Int) ∧
      ((a : Int) * x) % (m : Int) = 1 := by
  have hm1 : ¬ m = 1 := by omega
  have hgcd : (modInverseLoop (m + 1) a m 1 0).1 = Nat.gcd a m :=
    modInverseLoop_gcd (m + 1) a m 1 0 (by omega)
  have hinv := modInverseLoop_invariant m a (m + 1) a m 1 0 (by omega) ha
    (by norm_num)
    (by norm_num)
    (by simpa using Int.ModEq.refl (a : Int))
    (by
      have h1 : (m : Int) ≡ 0 [ZMOD (m : Int)] := Int.modEq_zero_iff_dvd.mpr dvd_rfl
      simpa using h1.symm)
    (by simp only [Int.natAbs_one]; omega)
  obtain ⟨hb, hcong⟩ := hinv
  rw [hgcd, hg] at hcong
  set x0 : Int := (modInverseLoop (m + 1) a m 1 0).2 with hx0
  have hnotgt : ¬ 1 < (modInverseLoop (m + 1) a m 1 0).1 := by
    rw [hgcd, hg]; omega
  have hres : modInverse a m = .ok (if x0 < 0 then x0 + m else x0) := by
    rw [modInverse, if_neg hm1]
    simp only [hnotgt, if_false]
  set y : Int := if x0 < 0 then x0 + m else x0 with hy
  have hycong : (a : Int) * y ≡ 1 [ZMOD (m : Int)] := by
    rcases lt_or_le x0 0 with h | h
    · have hyv : y = x0 + m := by rw [hy, if_pos h]
      have hm0 : (a : Int) * (m : Int) ≡ 0 [ZMOD (m : Int)] :=
        Int.modEq_zero_iff_dvd.mpr ⟨a, by ring⟩
      calc (a : Int) * y = (a : Int) * x0 + (a : Int) * m := by rw [hyv]; ring
        _ ≡ 1 + 0 [ZMOD (m : Int)] := Int.ModEq.add hcong hm0
        _ = 1 := by ring
    · have hyv : y = x0 := by rw [hy, if_neg (not_lt.mpr h)]
      rw [hyv]; exact hcong
  have hyne : y ≠ (m : Int) := by
    intro hcontra
    have h0 : (a : Int) * (m : Int) ≡ 0 [ZMOD (m : Int)] :=
      Int.modEq_zero_iff_dvd.mpr ⟨a, by ring⟩
    rw [hcontra] at hycong
    have h01 : (0 : Int) ≡ 1 [ZMOD (m : Int)] := h0.symm.trans hycong
    have hdvd : (m : Int) ∣ 1 := by simpa using h01.dvd
    have hle : (m : Int) ≤ 1 := Int.le_of_dvd (by norm_num) hdvd
    omega
  have habs : x0.natAbs ≤ m := hb
  have hrange : 0 ≤ y ∧ y < (m : Int) := by
    rcases lt_or_le x0 0 with h | h
    · have hyv : y = x0 + m := by rw [hy, if_pos h]
      rw [hyv]
      constructor
      · omega
      · omega
    · have hyv : y = x0 := by rw [hy, if_neg (not_lt.mpr h)]
      have hxm : x0 ≠ (m : Int) := by
        intro hc
        exact hyne (by rw [hyv, hc])
      rw [hyv]
      constructor
      · exact h
      · omega
  refine ⟨y, hres, hrange.1, hrange.2, ?_⟩
  have hmods : ((a : Int) * y) % (m : Int) = 1 % (m : Int) := hycong
  rw [hmods]
  exact Int.emod_eq_of_lt (by norm_num) (by exact_mod_cast hm)

theorem modInverse_error (a m : Nat) (hm : m ≠ 1) (hg : 1 < Nat.gcd a m) :
    modInverse a m = .error "Modular inverse does not exist" := by
  rw [modInverse, if_neg hm]
  have hgcd : (modInverseLoop (m + 1) a m 1 0).1 = Nat.gcd a m :=
    modInverseLoop_gcd (m + 1) a m 1 0 (by omega)
  simp only [hgcd, hg, if_pos]

/-- C4 (amended: the modulus must be at least 2; at `m = 1` the source
short-circuits to 1, which is neither in `[0, 1)` nor an inverse):
for `a > 0`, `m ≥ 2` and `gcd(a, m) = 1`, `modInverse(a, m)` returns a
value `x` normalized into `[0, m)` with `(a·x) mod m = 1`; for
non-coprime pairs (e.g. `modInverse(4, 8)`) it fails with the
"no modular inverse" error. -/
theorem modInverse_spec :
    (∀ a m : Nat, 0 < a → 2 ≤ m → Nat.gcd a m = 1 →
      ∃ x : Int, modInverse a m = .ok x ∧ 0 ≤ x ∧ x < (m : Int) ∧
        ((a : Int) * x) % (m : Int) = 1) ∧
    (∀ a m : Nat, m ≠ 1 → 1 < Nat.gcd a m →
      modInverse a m = .error "Modular inverse does not exist") :=
  ⟨modInverse_ok, modInverse_error⟩

/-- Counterexample to C4 as stated: it quantifies over every `m ≥ 1`,
but at `a = 1`, `m = 1` (which are coprime) the source returns 1, and
`(1 · 1) mod 1 = 0 ≠ 1` (nor is `1 < m`), so the claimed property fails
at `m = 1`. -/
theorem modInverse_spec_counterexample :
    modInverse 1 1 = .ok 1 ∧ ((1 : Int) * 1) % (1 : Int) ≠ 1 ∧ ¬ ((1 : Int) < 1) := by
  refine ⟨rfl, by decide, by decide⟩

/-- Witness for C4: the amended theorem applied at the coprime pair
`(3, 7)` and at the non-coprime pair `(4, 8)` from the claim. -/
theorem modInverse_spec_witness :
    (∃ x : Int, modInverse 3 7 = .ok x ∧ 0 ≤ x ∧ x < (7 : Int) ∧
      ((3 : Int) * x) % (7 : Int) = 1) ∧
    modInverse 4 8 = .error "Modular inverse does not exist" :=
  ⟨modInverse_spec.1 3 7 (by decide) (by decide) (by decide),
    modInverse_spec.2 4 8 (by decide) (by decide)⟩

/-- Fuel-driven embedding of the `while (d % 2 === 0)` loop of
`isProbablyPrime` that factors `n - 1 = d · 2^r` with `d` odd.  The
source loop halts because its argument is positive; any `fuel ≥ n`
is exact for input `n`. -/
def factorOutTwos : Nat → Nat → Nat × Nat
  | 0, d => (d, 0)
  | fuel + 1, d =>
    if d % 2 = 0 ∧ d ≠ 0 then
      let p := factorOutTwos fuel (d / 2)
      (p.1, p.2 + 1)
    else (d, 0)

theorem factorOutTwos_spec :
    ∀ fuel d, 0 < d → d ≤ fuel →
      (factorOutTwos fuel d).1 % 2 = 1 ∧
        (factorOutTwos fuel d).1 * 2 ^ (factorOutTwos fuel d).2 = d := by
  intro fuel
  induction fuel with
  | zero => omega
  | succ fuel ih =>
    intro d hd hle
    rw [factorOutTwos]
    by_cases h : d % 2 = 0 ∧ d ≠ 0
    · rw [if_pos h]
      have hhalf : 0 < d / 2 := by omega
      have hhalf2 : d / 2 ≤ fuel := by omega
      obtain ⟨hodd, hval⟩ := ih (d / 2) hhalf hhalf2
      refine ⟨hodd, ?_⟩
      simp only [pow_succ]
      have : (factorOutTwos fuel (d / 2)).1 * (2 ^ (factorOutTwos fuel (d / 2)).2 * 2) =
          (factorOutTwos fuel (d / 2)).1 * 2 ^ (factorOutTwos fuel (d / 2)).2 * 2 := by
        ring
      rw [this, hval]
      omega
    · simp only [h, if_false]
      have : d % 2 = 1 := by omega
      simp [this]

/-- The inner squaring loop of a Miller-Rabin witness round
(`for j = 0; j < r - 1; j++`): squares `x` modulo `n` up to `count`
times and reports whether `n - 1` was reached (in the source the flag
`composite` is cleared and the loop breaks). -/
def mrSquarings (n : Nat) : Nat → Nat → Bool
  | _, 0 => false
  | x, count + 1 =>
    let x2 := modPow x 2 n
    if x2 = n - 1 then true else mrSquarings n x2 count

/-- One witness round of `isProbablyPrime`: `x = modPow(a, d, n)`
passes immediately if it is `1` or `n - 1`, otherwise the squaring
loop must reach `n - 1` within `r - 1` squarings. -/
def mrWitnessOk (n d r a : Nat) : Bool :=
  let x := modPow a d n
  if x = 1 ∨ x = n - 1 then true else mrSquarings n x (r - 1)

/-- `isProbablyPrime(n, k)` of the source, with the `k` random witness
draws `a ∈ [2, n-2]` made explicit as the list `witnesses`: returns
true for 2 and 3, false for even or small `n`, otherwise runs one
Miller-Rabin round per witness and reports false as soon as a witness
proves `n` composite. -/
def isProbablyPrime (n : Nat) (witnesses : List Nat) : Bool :=
  if n = 2 ∨ n = 3 then true
  else if n % 2 = 0 ∨ n < 2 then false
  else
    let p := factorOutTwos (n - 1) (n - 1)
    witnesses.all (fun a => mrWitnessOk n p.1 p.2 a)

theorem zmod_sq_eq_one {n : Nat} [Fact n.Prime] (z : ZMod n) (h : z ^ 2 = 1) :
    z = 1 ∨ z = -1 := by
  have hfac : (z - 1) * (z + 1) = 0 := by
    have : z ^ 2 - 1 = 0 := by rw [h]; ring
    calc (z - 1) * (z + 1) = z ^ 2 - 1 := by ring
      _ = 0 := this
  rcases mul_eq_zero.mp hfac with h1 | h1
  · left
    have := sub_eq_zero.mp h1
    exact this
  · right
    exact eq_neg_of_add_eq_zero_left h1

theorem zmod_two_pow_roots {n : Nat} [Fact n.Prime] (b : ZMod n) :
    ∀ j, b ^ 2 ^ j = 1 → b = 1 ∨ b = -1 ∨ ∃ i, 1 ≤ i ∧ i < j ∧ b ^ 2 ^ i = -1 := by
  intro j
  induction j with
  | zero =>
    intro h
    left
    simpa using h
  | succ j ih =>
    intro h
    have hsq : (b ^ 2 ^ j) ^ 2 = 1 := by
      rw [← pow_mul, ← pow_succ]
      exact h
    rcases zmod_sq_eq_one _ hsq with h1 | h1
    · rcases ih h1 with h2 | h2 | ⟨i, hi1, hi2, hi3⟩
      · exact Or.inl h2
      · exact Or.inr (Or.inl h2)
      · exact Or.inr (Or.inr ⟨i, hi1, by omega, hi3⟩)
    · rcases Nat.eq_zero_or_pos j with hj | hj
      · subst hj
        simp only [pow_zero, pow_one] at h1
        exact Or.inr (Or.inl h1)
      · exact Or.inr (Or.inr ⟨j, by omega, by omega, h1⟩)

theorem mrSquarings_of_reach (n : Nat) (hn : 1 < n) :
    ∀ count x, (∃ i, 1 ≤ i ∧ i ≤ count ∧ x ^ 2 ^ i % n = n - 1) →
      mrSquarings n x count = true := by
  intro count
  induction count with
  | zero =>
    intro x ⟨i, hi1, hi2, _⟩
    omega
  | succ count ih =>
    intro x ⟨i, hi1, hi2, hi3⟩
    rw [mrSquarings]
    have hx2 : modPow x 2 n = x ^ 2 % n := modPow_eq x 2 n hn
    by_cases h : modPow x 2 n = n - 1
    · simp [h]
    · simp only [h, if_false]
      have hi1' : i ≠ 1 := by
        intro hcontra
        subst hcontra
        rw [pow_one] at hi3
        rw [hx2] at h
        exact h hi3
      apply ih
      refine ⟨i - 1, by omega, by omega, ?_⟩
      rw [hx2, ← Nat.pow_mod]
      have hpow : (x ^ 2) ^ 2 ^ (i - 1) = x ^ 2 ^ i := by
        rw [← pow_mul]
        congr 1
        have hi : i - 1 + 1 = i := by omega
        calc 2 * 2 ^ (i - 1) = 2 ^ (i - 1 + 1) := by rw [pow_succ]; ring
          _ = 2 ^ i := by rw [hi]
      rw [hpow]
      exact hi3

theorem mrWitnessOk_of_prime (n d r a : Nat) (hp : Nat.Prime n) (hn5 : 5 ≤ n)
    (hodd : n % 2 = 1) (hdr : d * 2 ^ r = n - 1) (hdodd : d % 2 = 1)
    (ha : 2 ≤ a) (ha2 : a ≤ n - 2) :
    mrWitnessOk n d r a = true := by
  haveI : Fact (Nat.Prime n) := ⟨hp⟩
  haveI : Fact (1 < n) := ⟨by omega⟩
  haveI : NeZero n := ⟨by omega⟩
  have hn1 : 1 < n := by omega
  rw [mrWitnessOk]
  by_cases hx : modPow a d n = 1 ∨ modPow a d n = n - 1
  · simp [hx]
  · simp only [hx, if_false]
    push_neg at hx
    obtain ⟨hx1, hx2⟩ := hx
    -- move to `ZMod n`
    set A : ZMod n := (a : ZMod n) with hA
    have hAne : A ≠ 0 := by
      intro hcontra
      have hval : A.val = a := ZMod.val_cast_of_lt (by omega)
      rw [hcontra] at hval
      simp [ZMod.val_zero] at hval
      omega
    set B : ZMod n := A ^ d with hB
    have hr1 : 1 ≤ r := by
      by_contra hcontra
      have hr0 : r = 0 := by omega
      rw [hr0, pow_zero, mul_one] at hdr
      omega
    have hBr : B ^ 2 ^ r = 1 := by
      rw [hB, ← pow_mul, hdr]
      exact ZMod.pow_card_sub_one_eq_one hAne
    -- bridge: the computed value casts to `B`
    have hxmod : modPow a d n = a ^ d % n := modPow_eq a d n hn1
    have hcast : ((modPow a d n : Nat) : ZMod n) = B := by
      rw [hxmod, hB, hA, ZMod.natCast_mod, Nat.cast_pow]
    have hvx : modPow a d n < n := by
      rw [hxmod]; exact Nat.mod_lt _ (by omega)
    have hcast1 : ((1 : Nat) : ZMod n) = (1 : ZMod n) := by norm_num
    have hcastn1 : ((n - 1 : Nat) : ZMod n) = (-1 : ZMod n) := by
      have h1 : ((n - 1 : Nat) : ZMod n) = (n : ZMod n) - 1 := by
        rw [Nat.cast_sub (by omega)]
        norm_num
      rw [h1, ZMod.natCast_self]
      ring
    have hBne1 : B ≠ 1 := by
      intro hcontra
      apply hx1
      have : ((modPow a d n : Nat) : ZMod n) = ((1 : Nat) : ZMod n) := by
        rw [hcast, hcontra, hcast1]
      have hv := congrArg ZMod.val this
      rw [ZMod.val_cast_of_lt hvx, ZMod.val_cast_of_lt (by omega)] at hv
      exact hv
    have hBnen1 : B ≠ -1 := by
      intro hcontra
      apply hx2
      have : ((modPow a d n : Nat) : ZMod n) = ((n - 1 : Nat) : ZMod n) := by
        rw [hcast, hcontra, hcastn1]
      have hv := congrArg ZMod.val this
      rw [ZMod.val_cast_of_lt hvx, ZMod.val_cast_of_lt (by omega)] at hv
      exact hv
    rcases zmod_two_pow_roots B r hBr with h1 | h1 | ⟨i, hi1, hi2, hi3⟩
    · exact absurd h1 hBne1
    · exact absurd h1 hBnen1
    · apply mrSquarings_of_reach n hn1
      refine ⟨i, hi1, by omega, ?_⟩
      have hc : (((modPow a d n) ^ 2 ^ i % n : Nat) : ZMod n) = ((n - 1 : Nat) : ZMod n) := by
        rw [ZMod.natCast_mod, Nat.cast_pow, hcast, hi3, hcastn1]
      have hv := congrArg ZMod.val hc
      rw [ZMod.val_cast_of_lt (Nat.mod_lt _ (by omega)),
        ZMod.val_cast_of_lt (by omega)] at hv
      exact hv

/-- C5: `isProbablyPrime` has one-sided error: for every prime `n` and
every sequence of witness draws from the range `[2, n-2]` the source
samples from, the test returns true (so a "composite" answer is only
ever given for a composite `n`); in particular `n = 2` or `n = 3`
yields true, and otherwise an even `n` or `n < 2` yields false. -/
theorem isProbablyPrime_spec :
    (∀ (n : Nat) (witnesses : List Nat), (n = 2 ∨ n = 3) →
      isProbablyPrime n witnesses = true) ∧
    (∀ (n : Nat) (witnesses : List Nat), ¬ (n = 2 ∨ n = 3) → (n % 2 = 0 ∨ n < 2) →
      isProbablyPrime n witnesses = false) ∧
    (∀ (n : Nat) (witnesses : List Nat), Nat.Prime n →
      (∀ a ∈ witnesses, 2 ≤ a ∧ a ≤ n - 2) →
      isProbablyPrime n witnesses = true) := by
  refine ⟨?_, ?_, ?_⟩
  · intro n witnesses h
    rw [isProbablyPrime, if_pos h]
  · intro n witnesses h23 hev
    rw [isProbablyPrime, if_neg h23, if_pos hev]
  · intro n witnesses hp hw
    by_cases h23 : n = 2 ∨ n = 3
    · rw [isProbablyPrime, if_pos h23]
    · have hge2 : 2 ≤ n := hp.two_le
      have hne4 : n ≠ 4 := by
        intro hcontra
        rw [hcontra] at hp
        norm_num at hp
      have hn5 : 5 ≤ n := by omega
      have hodd : n % 2 = 1 := by
        have := hp.eq_one_or_self_of_dvd 2
        rcases Nat.mod_two_eq_zero_or_one n with h | h
        · exfalso
          have h2 : (2 : Nat) ∣ n := Nat.dvd_of_mod_eq_zero h
          rcases (Nat.Prime.eq_one_or_self_of_dvd hp 2 h2) with hc | hc
          · omega
          · omega
        · exact h
      rw [isProbablyPrime, if_neg h23, if_neg (by omega)]
      obtain ⟨hdodd, hdval⟩ :=
        factorOutTwos_spec (n - 1) (n - 1) (by omega) (le_refl _)
      simp only [List.all_eq_true, decide_eq_true_eq]
      intro a ha
      exact mrWitnessOk_of_prime n _ _ a hp hn5 hodd hdval hdodd (hw a ha).1 (hw a ha).2

/-- Witness for C5: the main one-sidedness statement applied at the
prime `n = 13` with the concrete witness draws `[2, 6, 11]`, and the
small-case branches at `n = 3` and `n = 10`. -/
theorem isProbablyPrime_spec_witness :
    isProbablyPrime 13 [2, 6, 11] = true ∧
      isProbablyPrime 3 [] = true ∧
      isProbablyPrime 10 [5] = false :=
  ⟨isProbablyPrime_spec.2.2 13 [2, 6, 11] (by norm_num) (by decide),
    isProbablyPrime_spec.1 3 [] (by norm_num),
    isProbablyPrime_spec.2.1 10 [5] (by norm_num) (by norm_num)⟩

/-- `getMaxMessageSize(n)` of the source: modulus byte length minus the
11-byte minimum padding overhead, clamped below by 1. -/
def getMaxMessageSize (n : Nat) : Nat :=
  max 1 (byteLen n - 11)

/-- `padMessage(message, keySizeBytes)` of the source.  The message is
serialized to its minimal byte length (1 byte for 0, since JavaScript
renders 0 as the one-character string "0"); `paddingSize` is computed
in `Int` because the source computes it in (possibly negative) number
arithmetic before comparing with 8.  The random non-zero filler bytes
drawn by `crypto.getRandomValues` are passed in as `paddingBytes`; the
callers quantify over every choice with the right length and range.
The padded buffer is `0x00 ‖ 0x02 ‖ PS ‖ 0x00 ‖ M`. -/
def padMessage (message keySizeBytes : Nat) (paddingBytes : List Nat) :
    Except String Nat :=
  let messageBytes := bigIntToBytes message (byteLen message)
  let messageSize := messageBytes.length
  if (keySizeBytes : Int) - messageSize - 3 < 8 then
    .error "Message too large for key size"
  else
    .ok (bytesToBigInt ([0, 2] ++ paddingBytes ++ [0] ++ messageBytes))

/-- The separator scan of `unpadMessage`: the first index `i ≥ start`
with `bytes[i] = 0`, as an absolute index (`-1` becomes `none`). -/
def firstZeroIdx : List Nat → Nat → Option Nat
  | [], _ => none
  | b :: rest, i => if b = 0 then some i else firstZeroIdx rest (i + 1)

/-- `unpadMessage(padded, keySizeBytes)` of the source: re-expand to
`keySizeBytes` bytes, demand the `0x00 0x02` header, scan from offset 2
for the first zero separator, reject a missing separator or one before
offset 10, and read the remaining bytes as the message. -/
def unpadMessage (padded keySizeBytes : Nat) : Except String Nat :=
  let bytes := bigIntToBytes padded keySizeBytes
  if ¬ (bytes[0]? = some 0 ∧ bytes[1]? = some 2) then
    .error "Invalid padding format"
  else
    match firstZeroIdx (bytes.drop 2) 2 with
    | none => .error "Invalid padding: insufficient padding or missing separator"
    | some separatorIndex =>
      if separatorIndex < 10 then
        .error "Invalid padding: insufficient padding or missing separator"
      else
        .ok (bytesToBigInt (bytes.drop (separatorIndex + 1)))

theorem firstZeroIdx_append (pad : List Nat) (rest : List Nat)
    (h : ∀ b ∈ pad, b ≠ 0) :
    ∀ i, firstZeroIdx (pad ++ 0 :: rest) i = some (i + pad.length) := by
  induction pad with
  | nil => intro i; simp [firstZeroIdx]
  | cons b pad ih =>
    intro i
    have hb : b ≠ 0 := h b (by simp)
    simp only [List.cons_append, firstZeroIdx, hb, if_false]
    show firstZeroIdx (pad ++ 0 :: rest) (i + 1) = some (i + (b :: pad).length)
    rw [ih (fun x hx => h x (by simp [hx])) (i + 1)]
    congr 1
    simp only [List.length_cons]
    omega

theorem pad_unpad_roundtrip (m k : Nat) (pad : List Nat)
    (hfit : byteLen m + 11 ≤ k)
    (hlen : pad.length = k - byteLen m - 3)
    (hbytes : ∀ b ∈ pad, 0 < b ∧ b < 256) :
    ∃ p, padMessage m k pad = .ok p ∧ unpadMessage p k = .ok m := by
  set msgBytes : List Nat := bigIntToBytes m (byteLen m) with hmsg
  have hmlen : msgBytes.length = byteLen m := bigIntToBytes_length m (byteLen m)
  have hcond : ¬ ((k : Int) - msgBytes.length - 3 < 8) := by
    rw [hmlen]
    have : (byteLen m : Int) + 11 ≤ k := by exact_mod_cast hfit
    omega
  set full : List Nat := [0, 2] ++ pad ++ [0] ++ msgBytes with hfull
  have hres : padMessage m k pad = .ok (bytesToBigInt full) := by
    rw [padMessage, if_neg hcond]
  refine ⟨bytesToBigInt full, hres, ?_⟩
  have hflen : full.length = k := by
    rw [hfull]
    simp only [List.length_append, List.length_cons, List.length_nil, hmlen]
    omega
  have hfcons : full = 0 :: 2 :: (pad ++ 0 :: msgBytes) := by
    rw [hfull]
    simp
  have hfbytes : ∀ b ∈ full, b < 256 := by
    intro b hb
    rw [hfcons] at hb
    simp only [List.mem_cons, List.mem_append] at hb
    rcases hb with rfl | rfl | hb | rfl | hb
    · omega
    · omega
    · exact (hbytes b hb).2
    · omega
    · exact bigIntToBytes_lt m (byteLen m) b hb
  have hexp : bigIntToBytes (bytesToBigInt full) k = full := by
    have := bigIntToBytes_bytesToBigInt full hfbytes
    rw [hflen] at this
    exact this
  rw [unpadMessage]
  rw [hexp, hfcons]
  have hhead : ¬ ¬ ((0 :: 2 :: (pad ++ 0 :: msgBytes))[0]? = some 0 ∧
      (0 :: 2 :: (pad ++ 0 :: msgBytes))[1]? = some 2) := by
    simp
  rw [if_neg hhead]
  have hdrop2 : (0 :: 2 :: (pad ++ 0 :: msgBytes)).drop 2 = pad ++ 0 :: msgBytes := rfl
  rw [hdrop2]
  rw [firstZeroIdx_append pad msgBytes (fun b hb => by have := hbytes b hb; omega) 2]
  have hpadlen : 8 ≤ pad.length := by omega
  show (if 2 + pad.length < 10 then
      (Except.error "Invalid padding: insufficient padding or missing separator" :
        Except String Nat)
    else Except.ok
      (bytesToBigInt ((0 :: 2 :: (pad ++ 0 :: msgBytes)).drop (2 + pad.length + 1)))) =
    Except.ok m
  rw [if_neg (by omega)]
  have hdropmsg : (0 :: 2 :: (pad ++ 0 :: msgBytes)).drop (2 + pad.length + 1) =
      msgBytes := by
    have hsplit : 0 :: 2 :: (pad ++ 0 :: msgBytes) =
        (0 :: 2 :: pad ++ [0]) ++ msgBytes := by
      simp
    rw [hsplit]
    have hplen : (0 :: 2 :: pad ++ [0]).length = 2 + pad.length + 1 := by
      simp only [List.length_append, List.length_cons, List.length_nil]
      omega
    have := @List.drop_append Nat (0 :: 2 :: pad ++ [0]) msgBytes 0
    rw [Nat.add_zero, List.drop_zero] at this
    rw [← hplen]
    exact this
  rw [hdropmsg]
  have hmval : bytesToBigInt msgBytes = m := by
    rw [hmsg, bytesToBigInt_bigIntToBytes]
    exact Nat.mod_eq_of_lt (lt_pow_byteLen m)
  rw [hmval]

/-- C2: for every key size `k` (bytes) and message integer `m` whose
byte length is at most `k - 11`, and every choice of the random
non-zero padding bytes, `unpadMessage(padMessage(m, k), k) = m`;
`padMessage` fails when `m` requires more than `k - 11` bytes; and
`unpadMessage` fails on a `k`-byte buffer whose first two bytes are not
`0x00, 0x02`. -/
theorem pad_unpad_spec :
    (∀ (m k : Nat) (pad : List Nat), byteLen m + 11 ≤ k →
      pad.length = k - byteLen m - 3 → (∀ b ∈ pad, 0 < b ∧ b < 256) →
      ∃ p, padMessage m k pad = .ok p ∧ unpadMessage p k = .ok m) ∧
    (∀ (m k : Nat) (pad : List Nat), (k : Int) - 11 < (byteLen m : Int) →
      padMessage m k pad = .error "Message too large for key size") ∧
    (∀ (padded k : Nat),
      ¬ ((bigIntToBytes padded k)[0]? = some 0 ∧
        (bigIntToBytes padded k)[1]? = some 2) →
      unpadMessage padded k = .error "Invalid padding format") := by
  refine ⟨pad_unpad_roundtrip, ?_, ?_⟩
  · intro m k pad hbig
    rw [padMessage]
    have hmlen : (bigIntToBytes m (byteLen m)).length = byteLen m :=
      bigIntToBytes_length m (byteLen m)
    rw [if_pos (by rw [hmlen]; omega)]
  · intro padded k h
    rw [unpadMessage, if_pos h]

/-- Witness for C2: round trip of the message 72 in a 13-byte key with
padding bytes `7 × 9`; pad failure for the two-byte message 256 at key
size 12; unpad failure on the 11-byte buffer with header `0x01 0x02`. -/
theorem pad_unpad_spec_witness :
    (∃ p, padMessage 72 13 [7, 7, 7, 7, 7, 7, 7, 7, 7] = .ok p ∧
      unpadMessage p 13 = .ok 72) ∧
    padMessage 256 12 [1] = .error "Message too large for key size" ∧
    unpadMessage (bytesToBigInt [1, 2, 0, 0, 0, 0, 0, 0, 0, 0, 0]) 11 =
      .error "Invalid padding format" :=
  ⟨pad_unpad_spec.1 72 13 [7, 7, 7, 7, 7, 7, 7, 7, 7] (by decide) (by decide)
      (by decide),
    pad_unpad_spec.2.1 256 12 [1] (by decide),
    pad_unpad_spec.2.2 (bytesToBigInt [1, 2, 0, 0, 0, 0, 0, 0, 0, 0, 0]) 11
      (by decide)⟩

theorem pow_byteLen_pred_le (n : Nat) (hn : 0 < n) : 256 ^ (byteLen n - 1) ≤ n := by
  obtain ⟨hlo, _⟩ := bitLen_spec n hn
  have hk : 8 * byteLen n ≤ bitLen n + 7 := by
    rw [byteLen]
    omega
  have h1 : 8 * (byteLen n - 1) ≤ bitLen n - 1 := by
    have hb1 : 1 ≤ bitLen n := by
      rw [bitLen]
      split
      · omega
      · have := bitLenAux_spec n n hn (Nat.lt_two_pow n)
        omega
    omega
  calc 256 ^ (byteLen n - 1) = 2 ^ (8 * (byteLen n - 1)) := by
        rw [show (256 : Nat) = 2 ^ 8 from rfl, ← Nat.pow_mul]
    _ ≤ 2 ^ (bitLen n - 1) := Nat.pow_le_pow_right (by norm_num) h1
    _ ≤ n := hlo

/-- C9: for every modulus `n > 1` with `keySizeBytes = ⌈bitlength(n)/8⌉`
and every message for which `padMessage` returns normally (with padding
bytes of the shape the source draws), the padded value is strictly
below `256^(keySizeBytes - 1)` and hence strictly below `n`, so the
"Padded message exceeds key modulus" branch of `encrypt` and
`encryptWithProcess` can never fire. -/
theorem padMessage_lt_modulus (n m p : Nat) (pad : List Nat)
    (hn : 1 < n)
    (hlen : pad.length = byteLen n - byteLen m - 3)
    (hbytes : ∀ b ∈ pad, b < 256)
    (hok : padMessage m (byteLen n) pad = .ok p) :
    p < 256 ^ (byteLen n - 1) ∧ p < n := by
  set msgBytes : List Nat := bigIntToBytes m (byteLen m) with hmsg
  have hmlen : msgBytes.length = byteLen m := bigIntToBytes_length m (byteLen m)
  rw [padMessage] at hok
  by_cases hc : (byteLen n : Int) - msgBytes.length - 3 < 8
  · rw [if_pos hc] at hok
    exact absurd hok (by simp)
  · rw [if_neg hc] at hok
    have hfit : byteLen m + 11 ≤ byteLen n := by
      rw [hmlen] at hc
      omega
    have hp : p = bytesToBigInt ([0, 2] ++ pad ++ [0] ++ msgBytes) :=
      (Except.ok.inj hok).symm
    set rest : List Nat := 2 :: (pad ++ 0 :: msgBytes) with hrest
    have hcons : [0, 2] ++ pad ++ [0] ++ msgBytes = 0 :: rest := by
      rw [hrest]
      simp
    have hrlen : rest.length = byteLen n - 1 := by
      rw [hrest]
      simp only [List.length_cons, List.length_append]
      omega
    have hrbytes : ∀ b ∈ rest, b < 256 := by
      intro b hb
      rw [hrest] at hb
      simp only [List.mem_cons, List.mem_append] at hb
      rcases hb with rfl | hb | rfl | hb
      · omega
      · exact hbytes b hb
      · omega
      · exact bigIntToBytes_lt m (byteLen m) b hb
    have hval : p = bytesToBigInt rest := by
      rw [hp, hcons, bytesToBigInt_cons]
      omega
    have hlt : p < 256 ^ (byteLen n - 1) := by
      rw [hval, ← hrlen]
      exact bytesToBigInt_lt rest hrbytes
    exact ⟨hlt, lt_of_lt_of_le hlt (pow_byteLen_pred_le n (by omega))⟩

/-- Witness for C9 at the modulus `n = 2^88` (key size 12 bytes),
message 0 and padding bytes `1 × 8`. -/
theorem padMessage_lt_modulus_witness :
    bytesToBigInt [0, 2, 1, 1, 1, 1, 1, 1, 1, 1, 0, 0] < 256 ^ (byteLen (2 ^ 88) - 1) ∧
      bytesToBigInt [0, 2, 1, 1, 1, 1, 1, 1, 1, 1, 0, 0] < 2 ^ 88 :=
  padMessage_lt_modulus (2 ^ 88) 0 (bytesToBigInt [0, 2, 1, 1, 1, 1, 1, 1, 1, 1, 0, 0])
    [1, 1, 1, 1, 1, 1, 1, 1] (by norm_num) (by decide) (by decide) (by decide)

/-- The standard Base64 alphabet used by `btoa`/`atob`. -/
def base64Chars : List Char :=
  "ABCDEFGHIJKLMNOPQRSTUVWXYZabcdefghijklmnopqrstuvwxyz0123456789+/".toList

/-- The alphabet character for a sextet value. -/
def sextetChar (v : Nat) : Char :=
  base64Chars.getD v 'A'

/-- `bytesToBase64(bytes)` of the source (`btoa` over the byte string):
standard Base64 with `=` padding, three bytes to four characters. -/
def bytesToBase64 : List Nat → List Char
  | [] => []
  | [b1] => [sextetChar (b1 / 4), sextetChar (b1 % 4 * 16), '=', '=']
  | [b1, b2] => [sextetChar (b1 / 4), sextetChar (b1 % 4 * 16 + b2 / 16),
      sextetChar (b2 % 16 * 4), '=']
  | b1 :: b2 :: b3 :: rest =>
      sextetChar (b1 / 4) :: sextetChar (b1 % 4 * 16 + b2 / 16) ::
        sextetChar (b2 % 16 * 4 + b3 / 64) :: sextetChar (b3 % 64) ::
        bytesToBase64 rest

/-- ASCII whitespace, which the forgiving-base64 decoder behind `atob`
removes before decoding. -/
def isBase64Whitespace (c : Char) : Bool :=
  c == ' ' || c == '\t' || c == '\n' || c == '\x0c' || c == '\r'

/-- Index of a character in the Base64 alphabet. -/
def base64CharIndex (c : Char) : Option Nat :=
  List.findIdx? (fun x => x == c) base64Chars

/-- Remove one trailing `=`, if present. -/
def stripOneTrailingEq (s : List Char) : List Char :=
  if s.getLast? = some '=' then s.dropLast else s

/-- Reassemble bytes from sextet values (four sextets to three bytes;
a final pair or triple contributes one or two bytes, trailing bits
discarded as forgiving-base64 does). -/
def sextetsToBytes : List Nat → List Nat
  | s1 :: s2 :: s3 :: s4 :: rest =>
      (s1 * 4 + s2 / 16) :: (s2 % 16 * 16 + s3 / 4) :: (s3 % 4 * 64 + s4) ::
        sextetsToBytes rest
  | [s1, s2] => [s1 * 4 + s2 / 16]
  | [s1, s2, s3] => [s1 * 4 + s2 / 16, s2 % 16 * 16 + s3 / 4]
  | _ => []

/-- `base64ToBytes(base64)` of the source (`atob`): the WHATWG
forgiving-base64 decode — strip ASCII whitespace, strip up to two
trailing `=` when the length is a multiple of four, then fail on a
length `≡ 1 (mod 4)` or on any character outside the alphabet
(`atob` throws `InvalidCharacterError`), else decode sextets. -/
def base64ToBytes (s : List Char) : Except String (List Nat) :=
  let t := s.filter (fun c => ! isBase64Whitespace c)
  let t := if t.length % 4 = 0 then stripOneTrailingEq (stripOneTrailingEq t) else t
  if t.length % 4 = 1 then .error "InvalidCharacterError"
  else
    match t.mapM base64CharIndex with
    | none => .error "InvalidCharacterError"
    | some sextets => .ok (sextetsToBytes sextets)

/-- The chunking loop `for (i = 0; i < length; i += maxChunkSize)` of
`encrypt`, with the list length as structural fuel (each pass consumes
at least one byte; `maxChunkSize` is always ≥ 1 by `getMaxMessageSize`). -/
def chunkListAux {α : Type} (size : Nat) : Nat → List α → List (List α)
  | 0, _ => []
  | _, [] => []
  | fuel + 1, b :: rest =>
      (b :: rest.take (size - 1)) :: chunkListAux size fuel (rest.drop (size - 1))

/-- Split a list into slices of `size` elements (last one shorter);
also `chunkString(str, size)` of the source, on character lists. -/
def chunkList {α : Type} (size : Nat) (l : List α) : List (List α) :=
  chunkListAux size l.length l

/-- The defensive length normalization of `decrypt`: left-pad with zero
bytes up to `keySizeBytes`, or keep only the trailing `keySizeBytes`
(`slice(-keySizeBytes)`) when too long. -/
def normalizeLength (bytes : List Nat) (k : Nat) : List Nat :=
  if bytes.length < k then List.replicate (k - bytes.length) 0 ++ bytes
  else if k < bytes.length then bytes.drop (bytes.length - k)
  else bytes

/-- `chunks.join(":")` of the source. -/
def intercalateColon : List (List Char) → List Char
  | [] => []
  | [c] => c
  | c :: rest => c ++ ':' :: intercalateColon rest

/-- `ciphertext.split(":")` of the source (JavaScript semantics:
the empty string yields one empty field). -/
def splitOnColon : List Char → List (List Char)
  | [] => [[]]
  | c :: rest =>
    match splitOnColon rest with
    | [] => [[c]]
    | h :: t => if c = ':' then [] :: h :: t else (c :: h) :: t

/-- The per-chunk body of the `encrypt` loop: pad (with the drawn
padding bytes for this chunk index), guard `padded < n`, exponentiate
with the public key, serialize to exactly `keySizeBytes` bytes and
Base64-encode. -/
def encryptChunks (pubN pubE keySizeBytes : Nat) (pads : List (List Nat)) :
    List (List Nat) → Nat → Except String (List (List Char))
  | [], _ => .ok []
  | chunk :: rest, j =>
    match padMessage (bytesToBigInt chunk) keySizeBytes (pads.getD j []) with
    | .error e => .error e
    | .ok padded =>
      if pubN ≤ padded then .error "Padded message exceeds key modulus"
      else
        match encryptChunks pubN pubE keySizeBytes pads rest (j + 1) with
        | .error e => .error e
        | .ok cs =>
          .ok (bytesToBase64 (bigIntToBytes (modPow padded pubE pubN) keySizeBytes) :: cs)

/-- `encrypt(message, publicKey)` of the source, at the byte level: the
message is its `TextEncoder` UTF-8 byte sequence, the returned
ciphertext is the character sequence of the `:`-joined Base64 chunks.
`pads` supplies the random non-zero padding bytes drawn for each chunk. -/
def encrypt (message : List Nat) (pubN pubE : Nat) (pads : List (List Nat)) :
    Except String (List Char) :=
  if message = [] then .error "Message cannot be empty"
  else
    let maxChunkSize := getMaxMessageSize pubN
    let keySizeBytes := byteLen pubN
    match encryptChunks pubN pubE keySizeBytes pads (chunkList maxChunkSize message) 0 with
    | .error e => .error e
    | .ok chunks => .ok (intercalateColon chunks)

/-- One chunk of `decrypt`: Base64-decode, normalize to `keySizeBytes`
bytes, exponentiate with the private key, unpad, and re-serialize the
recovered integer **at its minimal byte length**
(`Math.ceil(messageBigInt.toString(2).length / 8)` in the source) —
this is where a chunk whose original bytes start with `0x00` loses
those bytes. -/
def decryptChunk (privN privD keySizeBytes : Nat) (chunk : List Char) :
    Except String (List Nat) :=
  match base64ToBytes chunk with
  | .error e => .error e
  | .ok bytes =>
    let encryptedBytes := normalizeLength bytes keySizeBytes
    let padded := modPow (bytesToBigInt encryptedBytes) privD privN
    match unpadMessage padded keySizeBytes with
    | .error e => .error e
    | .ok messageBigInt => .ok (bigIntToBytes messageBigInt (byteLen messageBigInt))

/-- The `for (const chunk of chunks)` loop of `decrypt`. -/
def decryptChunks (privN privD keySizeBytes : Nat) :
    List (List Char) → Except String (List (List Nat))
  | [] => .ok []
  | c :: rest =>
    match decryptChunk privN privD keySizeBytes c with
    | .error e => .error e
    | .ok bs =>
      match decryptChunks privN privD keySizeBytes rest with
      | .error e => .error e
      | .ok rs => .ok (bs :: rs)

/-- `decrypt(ciphertext, privateKey)` of the source, at the byte level:
split on `:`, decrypt each chunk, and concatenate the recovered chunk
byte sequences (the source decodes each chunk with `TextDecoder` and
joins the strings; on byte sequences that per-chunk decode is the
identity). -/
def decrypt (ciphertext : List Char) (privN privD : Nat) :
    Except String (List Nat) :=
  if ciphertext = [] then .error "Ciphertext cannot be empty"
  else
    let keySizeBytes := byteLen privN
    match decryptChunks privN privD keySizeBytes (splitOnColon ciphertext) with
    | .error e => .error e
    | .ok chunks => .ok chunks.flatten

/-- A concrete RSA key for evaluating the pipelines: the primes
`p = 3·2^41 + 1` and `q = 5·2^55 + 1` (both prime), `n = p·q`
(100 bits, so 13 key bytes and a 2-byte chunk limit), `e = 65537`,
and `d = e⁻¹ mod (p-1)(q-1)`. -/
def demoP : Nat := 6597069766657

/-- Second demo prime, `5·2^55 + 1`. -/
def demoQ : Nat := 180143985094819841

/-- Demo modulus `demoP * demoQ`. -/
def demoN : Nat := demoP * demoQ

/-- Demo private exponent, the inverse of 65537 modulo
`(demoP - 1) * (demoQ - 1)`. -/
def demoD : Nat := 633824091206741548722204639233

/-- The ciphertext the demo encryption produces. -/
def demoCiphertext : List Char :=
  (encrypt [0, 72] demoN 65537 [[7, 7, 7, 7, 7, 7, 7, 7, 7]]).toOption.getD []

set_option maxRecDepth 100000 in
/-- C1 (code bug): the round trip loses leading zero bytes.  With the
valid key pair above (`e·d ≡ 1 mod φ(n)` is checked in the first
conjunct), encrypting the two-byte message `0x00 0x48` — the UTF-8
bytes of the string `"\u0000H"` — succeeds, but decrypting the
resulting ciphertext returns the single byte `0x48` (`"H"`): `encrypt`
converts each chunk to a big integer, which forgets leading zero
bytes, and `decrypt` re-serializes the recovered integer at its
minimal byte length.  The same loss occurs for every key pair
`generateKeyPair` can return, including its 2048-bit ones. -/
theorem decrypt_encrypt_drops_leading_zero :
    (65537 * demoD) % ((demoP - 1) * (demoQ - 1)) = 1 ∧
      encrypt [0, 72] demoN 65537 [[7, 7, 7, 7, 7, 7, 7, 7, 7]] =
        .ok demoCiphertext ∧
      decrypt demoCiphertext demoN demoD = .ok [72] ∧
      ([72] : List Nat) ≠ [0, 72] := by
  refine ⟨by decide, by decide, by decide, by decide⟩

/-- The chunk loop of `encryptWithProcess`.  `j` is the chunk ordinal
(the source computes `Math.floor(i / maxChunkSize)`), `c` the running
`currentStep` counter of `addStep`; the emitted steps and the final
counter are returned alongside the encoded chunks.  When a chunk
throws, the exception propagates (the call is not successful, so no
step list is returned). -/
def encryptChunksWithProcess (pubN pubE keySizeBytes : Nat) (pads : List (List Nat)) :
    List (List Nat) → Nat → Nat →
      Except String (List (List Char) × List ProcessStep × Nat)
  | [], _, c => .ok ([], [], c)
  | chunk :: rest, j, c =>
    let padStep : ProcessStep := ⟨c + 1, "Padding Chunk " ++ toString (j + 1), .active⟩
    match padMessage (bytesToBigInt chunk) keySizeBytes (pads.getD j []) with
    | .error e => .error e
    | .ok padded =>
      if pubN ≤ padded then .error "Padded message exceeds key modulus"
      else
        let encStep : ProcessStep :=
          ⟨c + 2, "Encrypting Chunk " ++ toString (j + 1), .active⟩
        let outChunk :=
          bytesToBase64 (bigIntToBytes (modPow padded pubE pubN) keySizeBytes)
        let encodeStep : ProcessStep :=
          ⟨c + 3, "Encoding Chunk " ++ toString (j + 1), .active⟩
        match encryptChunksWithProcess pubN pubE keySizeBytes pads rest (j + 1) (c + 3) with
        | .error e => .error e
        | .ok (cs, steps, cf) =>
          .ok (outChunk :: cs, padStep :: encStep :: encodeStep :: steps, cf)

/-- `encryptWithProcess(message, publicKey, onStep)` of the source at
the byte level: behaviorally the `encrypt` pipeline, additionally
returning the ordered list of steps the `onStep` callback receives
(`addStep` increments `currentStep` starting from 0, so the emitted
indices are consecutive from 1). -/
def encryptWithProcess (message : List Nat) (pubN pubE : Nat) (pads : List (List Nat)) :
    Except String (List Char × List ProcessStep) :=
  if message = [] then .error "Message cannot be empty"
  else
    let maxChunkSize := getMaxMessageSize pubN
    let keySizeBytes := byteLen pubN
    let step1 : ProcessStep := ⟨1, "Input Message", .active⟩
    let step2 : ProcessStep := ⟨2, "Message Encoding", .active⟩
    let step3 : ProcessStep := ⟨3, "Chunking", .active⟩
    match encryptChunksWithProcess pubN pubE keySizeBytes pads
        (chunkList maxChunkSize message) 0 3 with
    | .error e => .error e
    | .ok (chunks, loopSteps, c) =>
      let finalStep : ProcessStep := ⟨c + 1, "Complete", .completed⟩
      .ok (intercalateColon chunks, step1 :: step2 :: step3 :: (loopSteps ++ [finalStep]))

/-- The chunk loop of `decryptWithProcess` (four steps per chunk:
Base64 decode, modular exponentiation, unpadding, text decode). -/
def decryptChunksWithProcess (privN privD keySizeBytes : Nat) :
    List (List Char) → Nat → Nat →
      Except String (List (List Nat) × List ProcessStep × Nat)
  | [], _, c => .ok ([], [], c)
  | chunk :: rest, i, c =>
    match base64ToBytes chunk with
    | .error e => .error e
    | .ok bytes =>
      let encryptedBytes := normalizeLength bytes keySizeBytes
      let decodeStep : ProcessStep :=
        ⟨c + 1, "Decoding Chunk " ++ toString (i + 1), .active⟩
      let padded := modPow (bytesToBigInt encryptedBytes) privD privN
      let decryptStep : ProcessStep :=
        ⟨c + 2, "Decrypting Chunk " ++ toString (i + 1), .active⟩
      let unpadStep : ProcessStep :=
        ⟨c + 3, "Removing Padding Chunk " ++ toString (i + 1), .active⟩
      match unpadMessage padded keySizeBytes with
      | .error e => .error e
      | .ok messageBigInt =>
        let textStep : ProcessStep :=
          ⟨c + 4, "Decoding Chunk " ++ toString (i + 1), .active⟩
        match decryptChunksWithProcess privN privD keySizeBytes rest (i + 1) (c + 4) with
        | .error e => .error e
        | .ok (rs, steps, cf) =>
          .ok (bigIntToBytes messageBigInt (byteLen messageBigInt) :: rs,
            decodeStep :: decryptStep :: unpadStep :: textStep :: steps, cf)

/-- `decryptWithProcess(ciphertext, privateKey, onStep)` of the source
at the byte level, returning the emitted steps alongside the result. -/
def decryptWithProcess (ciphertext : List Char) (privN privD : Nat) :
    Except String (List Nat × List ProcessStep) :=
  if ciphertext = [] then .error "Ciphertext cannot be empty"
  else
    let step1 : ProcessStep := ⟨1, "Input Ciphertext", .active⟩
    let step2 : ProcessStep := ⟨2, "Parsing Chunks", .active⟩
    let keySizeBytes := byteLen privN
    match decryptChunksWithProcess privN privD keySizeBytes
        (splitOnColon ciphertext) 0 2 with
    | .error e => .error e
    | .ok (chunks, loopSteps, c) =>
      let finalStep : ProcessStep := ⟨c + 1, "Complete", .completed⟩
      .ok (chunks.flatten, step1 :: step2 :: (loopSteps ++ [finalStep]))

theorem encryptChunksWithProcess_steps (pubN pubE k : Nat) (pads : List (List Nat)) :
    ∀ (chunks : List (List Nat)) (j c : Nat) cs steps cf,
      encryptChunksWithProcess pubN pubE k pads chunks j c = .ok (cs, steps, cf) →
      steps.map (fun s => s.step) = List.range' (c + 1) steps.length ∧
        cf = c + steps.length := by
  intro chunks
  induction chunks with
  | nil =>
    intro j c cs steps cf h
    rw [encryptChunksWithProcess] at h
    injection h with h
    injection h with h1 h2
    injection h2 with h2 h3
    subst h2 h3
    simp [List.range']
  | cons chunk rest ih =>
    intro j c cs steps cf h
    rw [encryptChunksWithProcess] at h
    cases hpad : padMessage (bytesToBigInt chunk) k (pads.getD j []) with
    | error e =>
      rw [hpad] at h
      simp at h
    | ok padded =>
      rw [hpad] at h
      simp only [] at h
      by_cases hguard : pubN ≤ padded
      · rw [if_pos hguard] at h
        simp at h
      · rw [if_neg hguard] at h
        cases hrec : encryptChunksWithProcess pubN pubE k pads rest (j + 1) (c + 3) with
        | error e =>
          rw [hrec] at h
          simp at h
        | ok triple =>
          obtain ⟨cs', steps', cf'⟩ := triple
          rw [hrec] at h
          simp only [] at h
          injection h with h
          injection h with h1 h2
          injection h2 with h2 h3
          subst h1 h2 h3
          obtain ⟨hmap, hcf⟩ := ih (j + 1) (c + 3) cs' steps' cf' hrec
          constructor
          · simp only [List.map_cons, List.length_cons, hmap]
            rw [List.range'_succ, List.range'_succ, List.range'_succ]
          · simp only [List.length_cons]
            omega

theorem decryptChunksWithProcess_steps (privN privD k : Nat) :
    ∀ (chunks : List (List Char)) (i c : Nat) rs steps cf,
      decryptChunksWithProcess privN privD k chunks i c = .ok (rs, steps, cf) →
      steps.map (fun s => s.step) = List.range' (c + 1) steps.length ∧
        cf = c + steps.length := by
  intro chunks
  induction chunks with
  | nil =>
    intro i c rs steps cf h
    rw [decryptChunksWithProcess] at h
    injection h with h
    injection h with h1 h2
    injection h2 with h2 h3
    subst h2 h3
    simp [List.range']
  | cons chunk rest ih =>
    intro i c rs steps cf h
    rw [decryptChunksWithProcess] at h
    cases hb64 : base64ToBytes chunk with
    | error e =>
      rw [hb64] at h
      simp at h
    | ok bytes =>
      rw [hb64] at h
      simp only [] at h
      cases hunpad : unpadMessage
          (modPow (bytesToBigInt (normalizeLength bytes k)) privD privN) k with
      | error e =>
        rw [hunpad] at h
        simp at h
      | ok messageBigInt =>
        rw [hunpad] at h
        simp only [] at h
        cases hrec : decryptChunksWithProcess privN privD k rest (i + 1) (c + 4) with
        | error e =>
          rw [hrec] at h
          simp at h
        | ok triple =>
          obtain ⟨rs', steps', cf'⟩ := triple
          rw [hrec] at h
          simp only [] at h
          injection h with h
          injection h with h1 h2
          injection h2 with h2 h3
          subst h1 h2 h3
          obtain ⟨hmap, hcf⟩ := ih (i + 1) (c + 4) rs' steps' cf' hrec
          constructor
          · simp only [List.map_cons, List.length_cons, hmap]
            rw [List.range'_succ, List.range'_succ, List.range'_succ, List.range'_succ]
          · simp only [List.length_cons]
            omega

/-- C7: for every successful `encryptWithProcess` or
`decryptWithProcess` call, the emitted steps carry indices exactly
`1..N` with no gaps, in strictly increasing order, and the final
emitted step is the `Complete` step with status `completed`. -/
theorem withProcess_trace_spec :
    (∀ (message : List Nat) (pubN pubE : Nat) (pads : List (List Nat))
        (result : List Char) (steps : List ProcessStep),
      encryptWithProcess message pubN pubE pads = .ok (result, steps) →
      steps.map (fun s => s.step) = List.range' 1 steps.length ∧
        steps.getLast? = some ⟨steps.length, "Complete", .completed⟩) ∧
    (∀ (ciphertext : List Char) (privN privD : Nat)
        (result : List Nat) (steps : List ProcessStep),
      decryptWithProcess ciphertext privN privD = .ok (result, steps) →
      steps.map (fun s => s.step) = List.range' 1 steps.length ∧
        steps.getLast? = some ⟨steps.length, "Complete", .completed⟩) := by
  constructor
  · intro message pubN pubE pads result steps h
    rw [encryptWithProcess] at h
    by_cases hempty : message = []
    · rw [if_pos hempty] at h
      simp at h
    · rw [if_neg hempty] at h
      dsimp only [] at h
      cases hrec : encryptChunksWithProcess pubN pubE (byteLen pubN) pads
          (chunkList (getMaxMessageSize pubN) message) 0 3 with
      | error e =>
        rw [hrec] at h
        simp at h
      | ok triple =>
        obtain ⟨chunks, loopSteps, c⟩ := triple
        rw [hrec] at h
        simp only [] at h
        injection h with h
        injection h with h1 h2
        subst h2
        obtain ⟨hmap, hc⟩ := encryptChunksWithProcess_steps pubN pubE (byteLen pubN)
          pads (chunkList (getMaxMessageSize pubN) message) 0 3 chunks loopSteps c hrec
        have hlen : (({ step := 1, name := "Input Message", status := .active } : ProcessStep) ::
            ({ step := 2, name := "Message Encoding", status := .active } : ProcessStep) ::
            ({ step := 3, name := "Chunking", status := .active } : ProcessStep) ::
            (loopSteps ++ [⟨c + 1, "Complete", .completed⟩])).length =
            loopSteps.length + 4 := by
          simp
        constructor
        · rw [hlen]
          simp only [List.map_cons, List.map_append, List.map_cons, List.map_nil, hmap]
          rw [List.range'_succ, List.range'_succ, List.range'_succ]
          have hfin : List.range' (1 + 1 + 1 + 1) (loopSteps.length + 1) =
              List.range' (3 + 1) loopSteps.length ++ [c + 1] := by
            have h4 : (1 + 1 + 1 + 1 : Nat) = 4 := by norm_num
            have hel : 4 + 1 * loopSteps.length = c + 1 := by omega
            rw [h4, @List.range'_concat 1 4 loopSteps.length, hel]
          rw [hfin]
        · rw [hlen]
          have : ({ step := 1, name := "Input Message", status := .active } : ProcessStep) ::
              ({ step := 2, name := "Message Encoding", status := .active } : ProcessStep) ::
              ({ step := 3, name := "Chunking", status := .active } : ProcessStep) ::
              (loopSteps ++ [(⟨c + 1, "Complete", .completed⟩ : ProcessStep)]) =
              (({ step := 1, name := "Input Message", status := .active } : ProcessStep) ::
              ({ step := 2, name := "Message Encoding", status := .active } : ProcessStep) ::
              ({ step := 3, name := "Chunking", status := .active } : ProcessStep) ::
              loopSteps) ++ [(⟨c + 1, "Complete", .completed⟩ : ProcessStep)] := by
            simp
          rw [this, List.getLast?_concat]
          congr 2
          omega
  · intro ciphertext privN privD result steps h
    rw [decryptWithProcess] at h
    by_cases hempty : ciphertext = []
    · rw [if_pos hempty] at h
      simp at h
    · rw [if_neg hempty] at h
      dsimp only [] at h
      cases hrec : decryptChunksWithProcess privN privD (byteLen privN)
          (splitOnColon ciphertext) 0 2 with
      | error e =>
        rw [hrec] at h
        simp at h
      | ok triple =>
        obtain ⟨chunks, loopSteps, c⟩ := triple
        rw [hrec] at h
        simp only [] at h
        injection h with h
        injection h with h1 h2
        subst h2
        obtain ⟨hmap, hc⟩ := decryptChunksWithProcess_steps privN privD (byteLen privN)
          (splitOnColon ciphertext) 0 2 chunks loopSteps c hrec
        have hlen : (({ step := 1, name := "Input Ciphertext", status := .active } : ProcessStep) ::
            ({ step := 2, name := "Parsing Chunks", status := .active } : ProcessStep) ::
            (loopSteps ++ [⟨c + 1, "Complete", .completed⟩])).length =
            loopSteps.length + 3 := by
          simp
        constructor
        · rw [hlen]
          simp only [List.map_cons, List.map_append, List.map_cons, List.map_nil, hmap]
          rw [List.range'_succ, List.range'_succ]
          have hfin : List.range' (1 + 1 + 1) (loopSteps.length + 1) =
              List.range' (2 + 1) loopSteps.length ++ [c + 1] := by
            have h3 : (1 + 1 + 1 : Nat) = 3 := by norm_num
            have hel : 3 + 1 * loopSteps.length = c + 1 := by omega
            rw [h3, @List.range'_concat 1 3 loopSteps.length, hel]
          rw [hfin]
        · rw [hlen]
          have : ({ step := 1, name := "Input Ciphertext", status := .active } : ProcessStep) ::
              ({ step := 2, name := "Parsing Chunks", status := .active } : ProcessStep) ::
              (loopSteps ++ [(⟨c + 1, "Complete", .completed⟩ : ProcessStep)]) =
              (({ step := 1, name := "Input Ciphertext", status := .active } : ProcessStep) ::
              ({ step := 2, name := "Parsing Chunks", status := .active } : ProcessStep) ::
              loopSteps) ++ [(⟨c + 1, "Complete", .completed⟩ : ProcessStep)] := by
            simp
          rw [this, List.getLast?_concat]
          congr 2
          omega

/-- The (result, trace) pair of a successful demo `encryptWithProcess` run. -/
def encryptRunDemo : List Char × List ProcessStep :=
  (encryptWithProcess [72] demoN 65537 [[7, 7, 7, 7, 7, 7, 7, 7, 7]]).toOption.getD ([], [])

/-- The (result, trace) pair of a successful demo `decryptWithProcess` run. -/
def decryptRunDemo : List Nat × List ProcessStep :=
  (decryptWithProcess demoCiphertext demoN demoD).toOption.getD ([], [])

set_option maxRecDepth 100000 in
/-- Witness for C7: one successful instrumented encryption (the byte
`0x48` under the demo key, 7 steps) and one successful instrumented
decryption (the demo ciphertext, 7 steps). -/
theorem withProcess_trace_spec_witness :
    (encryptRunDemo.2.map (fun s => s.step) = List.range' 1 encryptRunDemo.2.length ∧
      encryptRunDemo.2.getLast? =
        some ⟨encryptRunDemo.2.length, "Complete", .completed⟩) ∧
    (decryptRunDemo.2.map (fun s => s.step) = List.range' 1 decryptRunDemo.2.length ∧
      decryptRunDemo.2.getLast? =
        some ⟨decryptRunDemo.2.length, "Complete", .completed⟩) :=
  ⟨withProcess_trace_spec.1 [72] demoN 65537 [[7, 7, 7, 7, 7, 7, 7, 7, 7]]
      encryptRunDemo.1 encryptRunDemo.2 (by decide),
    withProcess_trace_spec.2 demoCiphertext demoN demoD
      decryptRunDemo.1 decryptRunDemo.2 (by decide)⟩

/-- JavaScript regex `\s` / `trim()` whitespace, restricted to the
ASCII range that can occur in the PEM texts at hand. -/
def jsIsSpace (c : Char) : Bool :=
  c == ' ' || c == '\t' || c == '\n' || c == '\x0b' || c == '\x0c' || c == '\r'

/-- `pemString.split("\n")` of the source. -/
def splitOnNewline : List Char → List (List Char)
  | [] => [[]]
  | c :: rest =>
    match splitOnNewline rest with
    | [] => [[c]]
    | h :: t => if c = '\n' then [] :: h :: t else (c :: h) :: t

/-- `lines.join("\n")` of the source. -/
def intercalateNewline : List (List Char) → List Char
  | [] => []
  | [c] => c
  | c :: rest => c ++ '\n' :: intercalateNewline rest

/-- Does the line start with `-----`? -/
def startsWithDashes : List Char → Bool
  | '-' :: '-' :: '-' :: '-' :: '-' :: _ => true
  | _ => false

/-- `line.includes("-----")` of the source. -/
def containsDashes : List Char → Bool
  | [] => false
  | c :: rest => startsWithDashes (c :: rest) || containsDashes rest

/-- The parser keeps a line when `line.trim()` is truthy (some
non-whitespace character) and the line holds no `-----` marker. -/
def lineKept (line : List Char) : Bool :=
  (line.any (fun c => ! jsIsSpace c)) && ! containsDashes line

/-- The regex search `/x:\s*([^\s]+)/` of the source for a label
character `x`: find `x:`, skip whitespace, capture the maximal
non-empty run of non-whitespace; on an empty capture the engine moves
on and retries from the next position. -/
def matchField (label : Char) : List Char → Option (List Char)
  | [] => none
  | c :: rest =>
    if c = label ∧ rest.head? = some ':' then
      let run := ((rest.drop 1).dropWhile (fun x => jsIsSpace x)).takeWhile
        (fun x => ! jsIsSpace x)
      if run ≠ [] then some run else matchField label rest
    else matchField label rest

/-- `formatKeyPEM(key, isPrivate)` of the source: base64 the minimal
big-endian bytes of the components, lay out `n: …⏎d: …` (private) or
`n: …⏎e: …` (public) — note the newline lives inside `keyData` —
wrap at 64 characters, and bracket with BEGIN/END markers.  A missing
(or zero, since `0n` is falsy in JavaScript) component throws
"Invalid key format". -/
def formatKeyPEM (keyN : Nat) (keyE keyD : Option Nat) (isPrivate : Bool) :
    Except String (List Char) :=
  let keyType : List Char :=
    if isPrivate then "RSA PRIVATE KEY".toList else "RSA PUBLIC KEY".toList
  let nBase64 := bytesToBase64 (bigIntToBytes keyN (byteLen keyN))
  let field : Char → Nat → List Char := fun label v =>
    label :: ':' :: ' ' :: bytesToBase64 (bigIntToBytes v (byteLen v))
  let keyData : Option (List Char) :=
    if isPrivate then
      match keyD with
      | some d => if d = 0 then none else
          some (('n' :: ':' :: ' ' :: nBase64) ++ '\n' :: field 'd' d)
      | none => none
    else
      match keyE with
      | some e => if e = 0 then none else
          some (('n' :: ':' :: ' ' :: nBase64) ++ '\n' :: field 'e' e)
      | none => none
  match keyData with
  | none => .error "Invalid key format"
  | some data =>
    .ok (intercalateNewline
      ((("-----BEGIN ".toList ++ keyType ++ "-----".toList) :: chunkList 64 data) ++
        [("-----END ".toList ++ keyType ++ "-----".toList)]))

/-- `parseKeyPEM(pemString)` of the source: split into lines, drop
blank and `-----` lines, join the survivors **with no separator**,
then regex-extract the labeled fields; a missing `n` field throws
"Invalid PEM format: missing n", and each extracted field goes through
`atob` (which can itself throw on malformed base64). -/
def parseKeyPEM (pem : List Char) : Except String (Nat × Option Nat × Option Nat) :=
  let keyData := (List.filter lineKept (splitOnNewline pem)).flatten
  match matchField 'n' keyData with
  | none => .error "Invalid PEM format: missing n"
  | some nStr =>
    match base64ToBytes nStr with
    | .error e => .error e
    | .ok nBytes =>
      let eRes : Except String (Option Nat) :=
        match matchField 'e' keyData with
        | none => .ok none
        | some s => (base64ToBytes s).map (fun bs => some (bytesToBigInt bs))
      let dRes : Except String (Option Nat) :=
        match matchField 'd' keyData with
        | none => .ok none
        | some s => (base64ToBytes s).map (fun bs => some (bytesToBigInt bs))
      match eRes, dRes with
      | .error e, _ => .error e
      | _, .error e => .error e
      | .ok eOpt, .ok dOpt => .ok (bytesToBigInt nBytes, eOpt, dOpt)

/-- C8 (code bug): the PEM round trip never recovers the key.
`formatKeyPEM` embeds the two fields as `n: …⏎e: …` inside `keyData`,
but `parseKeyPEM` joins the filtered lines with the empty string, so
the newline disappears and the text becomes `n: <base64>e: <base64>`;
the greedy `[^\s]+` capture for `n` then swallows the following `e:`
label, and `atob` throws on the resulting non-base64 capture
(here `"Bg==e:"` for the public key `{n = 6, e = 3}`).  The second
conjunct shows the error branch the claim does describe correctly:
input without an `n` field fails with the descriptive
"missing n" error. -/
theorem parseKeyPEM_formatKeyPEM_code_bug :
    (formatKeyPEM 6 (some 3) none false).bind parseKeyPEM =
      .error "InvalidCharacterError" ∧
    matchField 'n'
      ((List.filter lineKept (splitOnNewline (formatKeyPEM 6 (some 3) none
        false).toOption.toList.flatten)).flatten) = some "Bg==e:".toList ∧
    parseKeyPEM
      "-----BEGIN RSA PUBLIC KEY-----\ne: Aw==\n-----END RSA PUBLIC KEY-----".toList =
      .error "Invalid PEM format: missing n" := by
  refine ⟨by decide, by decide, by decide⟩

/-- `RSAKeyPair` of the source: `publicKey = {n, e}` and
`privateKey = {n, d}` share the modulus, so the pair is flattened to
its three components (`d` is the normalized output of `modInverse`). -/
structure RSAKeyPair where
  n : Nat
  e : Nat
  d : Int
deriving DecidableEq

/-- Modelled from the spec: the teaching-mode public-exponent choice —
the smallest odd value ≥ 3 that is coprime with `φ`, falling back to 3
when none is found below `φ`. -/
def chooseTeachingE (phi : Nat) : Nat :=
  match (List.range phi).filter
      (fun e => e % 2 == 1 && decide (3 ≤ e) && Nat.gcd e phi == 1) with
  | [] => 3
  | e :: _ => e

/-- Modelled from the spec: the key-size-mode dispatching key-pair
constructor.  The repository UI (`KeyGenerator.tsx`) calls
`generateKeyPair(keySize)` with the enumerated sizes 8 and 2048, but
the mode-taking implementation is not among the provided sources (the
`rsa.ts` present takes no mode and always builds 2048-bit keys).
Following the spec: teaching mode (8) uses the two fixed, publicly
known primes `p = 2`, `q = 3` (so `n = 6`) and draws nothing at
random; secure mode (2048) builds `n` from two generated 1024-bit
primes (abstracted as the `p1024`, `q1024` inputs) with `e = 65537`;
every unrecognized mode fails with a configuration error. -/
def generateKeyPairMode (mode : Nat) (p1024 q1024 : Nat) : Except String RSAKeyPair :=
  if mode = 8 then
    let p := 2
    let q := 3
    let n := p * q
    let phi := (p - 1) * (q - 1)
    let e := chooseTeachingE phi
    (modInverse e phi).map (fun d => ⟨n, e, d⟩)
  else if mode = 2048 then
    let n := p1024 * q1024
    let phi := (p1024 - 1) * (q1024 - 1)
    (modInverse 65537 phi).map (fun d => ⟨n, 65537, d⟩)
  else .error "Invalid key size: expected 8 or 2048"

/-- C6 (spec-modelled): key generation takes a key-size mode; in the
teaching mode it uses the fixed, publicly known tiny primes 2 and 3 —
the result is always the key pair `n = 6`, `e = 3`, `d = 1` no matter
what the prime generator would supply — and every unrecognized mode
fails with the configuration error. -/
theorem generateKeyPairMode_spec :
    (∀ p1024 q1024 : Nat,
      generateKeyPairMode 8 p1024 q1024 = .ok ⟨6, 3, 1⟩) ∧
    (∀ mode p1024 q1024 : Nat, mode ≠ 8 → mode ≠ 2048 →
      generateKeyPairMode mode p1024 q1024 =
        .error "Invalid key size: expected 8 or 2048") := by
  constructor
  · intro p1024 q1024
    rfl
  · intro mode p1024 q1024 h8 h2048
    rw [generateKeyPairMode, if_neg h8, if_neg h2048]

/-- Witness for C6: teaching mode at arbitrary prime inputs, and the
unrecognized mode 512. -/
theorem generateKeyPairMode_spec_witness :
    generateKeyPairMode 8 0 0 = .ok ⟨6, 3, 1⟩ ∧
      generateKeyPairMode 512 0 0 = .error "Invalid key size: expected 8 or 2048" :=
  ⟨generateKeyPairMode_spec.1 0 0,
    generateKeyPairMode_spec.2 512 0 0 (by decide) (by decide)⟩
